import Mathlib

/-
  Verification development for the Musaic analyzer service
  (apps/analyzer/app/analyzer.py, downloader.py, endpoints/batch.py).

  The Python code is shallowly embedded: machine floats are modelled as
  exact rationals, numpy/essentia extractor calls (tempo estimators, beat
  tracker, per-frame energies, bass-band energies) are inputs to the
  embedded functions, and all orchestration logic (candidate assembly,
  octave normalization, agreement scoring, winner selection, highlight
  search, beat-offset computation, download fallback chain, batch start
  endpoint) is translated directly from the source.
-/

namespace Musaic

/-! ### Python numeric primitives -/

/-- Python round-half-to-even on a rational (the semantics of the built-in
round() on floats, ignoring binary representation error). -/
def pyRound (q : ℚ) : ℤ :=
  if q - ⌊q⌋ < 1/2 then ⌊q⌋
  else if 1/2 < q - ⌊q⌋ then ⌊q⌋ + 1
  else if ⌊q⌋ % 2 = 0 then ⌊q⌋ else ⌊q⌋ + 1

/-- Python round(x, n): round to n decimal places, half to even. -/
def pyRoundTo (n : ℕ) (q : ℚ) : ℚ :=
  ((pyRound (q * 10 ^ n) : ℤ) : ℚ) / 10 ^ n

/-- Python float modulo: result has the sign of the modulus; for a positive
modulus the result lies in [0, m). -/
def pyMod (a m : ℚ) : ℚ := a - m * ⌊a / m⌋

/-- Python int() on a float: truncation toward zero. -/
def pyInt (q : ℚ) : ℤ := if 0 ≤ q then ⌊q⌋ else -⌊-q⌋

theorem pyRound_ge_floor (q : ℚ) : ⌊q⌋ ≤ pyRound q := by
  unfold pyRound
  split_ifs <;> omega

theorem pyRound_nonneg (q : ℚ) (h : 0 ≤ q) : 0 ≤ pyRound q :=
  le_trans (Int.floor_nonneg.mpr h) (pyRound_ge_floor q)

theorem pyRound_le (q : ℚ) : (pyRound q : ℚ) ≤ q + 1/2 := by
  unfold pyRound
  have hf : (⌊q⌋ : ℚ) ≤ q := Int.floor_le q
  have hf2 : q - 1 < ⌊q⌋ := by
    have := Int.lt_floor_add_one q
    linarith
  have hc : ((⌊q⌋ + 1 : ℤ) : ℚ) = (⌊q⌋ : ℚ) + 1 := by push_cast; ring
  split_ifs with h1 h2 h3
  · linarith
  · rw [hc]
    simp only [not_lt] at h1
    linarith
  · linarith [le_of_not_lt h2]
  · rw [hc]
    linarith [le_of_not_lt h2]

theorem pyRoundTo_nonneg (n : ℕ) (q : ℚ) (h : 0 ≤ q) : 0 ≤ pyRoundTo n q := by
  unfold pyRoundTo
  apply div_nonneg
  · exact_mod_cast pyRound_nonneg _ (by positivity)
  · positivity

theorem pyRoundTo_le (n : ℕ) (q : ℚ) : pyRoundTo n q ≤ q + 1 / (2 * 10 ^ n) := by
  unfold pyRoundTo
  rw [div_le_iff₀ (by positivity)]
  have := pyRound_le (q * 10 ^ n)
  have hp : (0:ℚ) < 10 ^ n := by positivity
  calc ((pyRound (q * 10 ^ n) : ℤ) : ℚ) ≤ q * 10 ^ n + 1/2 := this
    _ = (q + 1 / (2 * 10 ^ n)) * 10 ^ n := by field_simp; ring

theorem pyMod_nonneg (a m : ℚ) (hm : 0 < m) : 0 ≤ pyMod a m := by
  unfold pyMod
  have h := Int.floor_le (a / m)
  have : m * ⌊a / m⌋ ≤ m * (a / m) := by
    exact mul_le_mul_of_nonneg_left h (le_of_lt hm)
  rw [mul_div_cancel₀ a (ne_of_gt hm)] at this
  linarith

theorem pyMod_lt (a m : ℚ) (hm : 0 < m) : pyMod a m < m := by
  unfold pyMod
  have h := Int.lt_floor_add_one (a / m)
  have : m * (a / m) < m * (⌊a / m⌋ + 1) := by
    exact mul_lt_mul_of_pos_left h hm
  rw [mul_div_cancel₀ a (ne_of_gt hm)] at this
  linarith

/-! ### Octave normalization (analyzer.py, normalize_bpm, lines 774-779)

The two while loops are embedded with explicit fuel; sufficiency of the
allotted fuel is proved below, and fuel-irrelevance lemmas show the result
is the loop's actual fixed point. -/

/-- The loop: while bpm < 100: bpm *= 2 (fuel-bounded). -/
def doubleUp : ℕ → ℚ → ℚ
  | 0, b => b
  | n + 1, b => if b < 100 then doubleUp n (2 * b) else b

/-- The loop: while bpm > 200: bpm /= 2 (fuel-bounded). -/
def halveDown : ℕ → ℚ → ℚ
  | 0, b => b
  | n + 1, b => if 200 < b then halveDown n (b / 2) else b

/-- Fuel allotted to the doubling loop. -/
def dFuel (b : ℚ) : ℕ := (⌈(100 : ℚ) / b⌉).toNat

/-- Fuel allotted to the halving loop. -/
def hFuel (b : ℚ) : ℕ := (⌈b⌉).toNat

/-- normalize_bpm from analyzer.py: double below 100, then halve above 200. -/
def normalize_bpm (b : ℚ) : ℚ :=
  halveDown (hFuel (doubleUp (dFuel b) b)) (doubleUp (dFuel b) b)

theorem doubleUp_id (n : ℕ) (b : ℚ) (h : 100 ≤ b) : doubleUp n b = b := by
  cases n with
  | zero => rfl
  | succ n => simp [doubleUp, not_lt.mpr h]

theorem halveDown_id (n : ℕ) (b : ℚ) (h : b ≤ 200) : halveDown n b = b := by
  cases n with
  | zero => rfl
  | succ n => simp [halveDown, not_lt.mpr h]

theorem two_pow_ge_nat (n : ℕ) : (n : ℚ) + 1 ≤ 2 ^ n := by
  have h : n + 1 ≤ 2 ^ n := Nat.lt_two_pow n
  exact_mod_cast h

theorem dFuel_suff (b : ℚ) (hb : 0 < b) : 100 ≤ b * 2 ^ dFuel b := by
  by_cases h : 100 ≤ b
  · have h2 : (1:ℚ) ≤ 2 ^ dFuel b := one_le_pow₀ (by norm_num)
    nlinarith
  · push_neg at h
    have hgt : (1:ℚ) < 100 / b := (one_lt_div hb).mpr h
    have hceil : (100 / b : ℚ) ≤ ⌈(100:ℚ) / b⌉ := Int.le_ceil _
    have hpos : (0:ℤ) < ⌈(100:ℚ) / b⌉ := by
      have : (0:ℚ) < 100 / b := by positivity
      exact Int.ceil_pos.mpr this
    have htn : ((dFuel b : ℕ) : ℚ) = (⌈(100:ℚ) / b⌉ : ℚ) := by
      unfold dFuel
      exact_mod_cast Int.toNat_of_nonneg (le_of_lt hpos)
    have hpow : ((dFuel b : ℕ) : ℚ) + 1 ≤ 2 ^ dFuel b := two_pow_ge_nat _
    have : 100 / b ≤ 2 ^ dFuel b := by
      rw [← htn] at hceil
      linarith
    calc (100:ℚ) = b * (100 / b) := by field_simp
      _ ≤ b * 2 ^ dFuel b := by
          exact mul_le_mul_of_nonneg_left this (le_of_lt hb)

theorem hFuel_suff (b : ℚ) (hb : 0 < b) : b ≤ 200 * 2 ^ hFuel b := by
  have hceil : (b : ℚ) ≤ ⌈b⌉ := Int.le_ceil _
  have hpos : (0:ℤ) < ⌈b⌉ := Int.ceil_pos.mpr hb
  have htn : ((hFuel b : ℕ) : ℚ) = (⌈b⌉ : ℚ) := by
    unfold hFuel
    exact_mod_cast Int.toNat_of_nonneg (le_of_lt hpos)
  have hpow : ((hFuel b : ℕ) : ℚ) + 1 ≤ 2 ^ hFuel b := two_pow_ge_nat _
  have h2 : b ≤ 2 ^ hFuel b := by linarith
  nlinarith [pow_pos (show (0:ℚ) < 2 by norm_num) (hFuel b)]

theorem doubleUp_pos (n : ℕ) (b : ℚ) (hb : 0 < b) : 0 < doubleUp n b := by
  induction n generalizing b with
  | zero => exact hb
  | succ n ih =>
    unfold doubleUp
    split_ifs
    · exact ih (2 * b) (by linarith)
    · exact hb

theorem doubleUp_main (n : ℕ) (b : ℚ) (hb : 0 < b) (hf : 100 ≤ b * 2 ^ n) :
    100 ≤ doubleUp n b ∧ (doubleUp n b < 200 ∨ doubleUp n b = b) := by
  induction n generalizing b with
  | zero =>
    simp only [pow_zero, mul_one] at hf
    exact ⟨hf, Or.inr rfl⟩
  | succ n ih =>
    by_cases h : b < 100
    · have hstep : doubleUp (n + 1) b = doubleUp n (2 * b) := by
        simp [doubleUp, h]
      have hf2 : 100 ≤ 2 * b * 2 ^ n := by
        have : b * 2 ^ (n + 1) = 2 * b * 2 ^ n := by ring
        linarith [hf, this.symm.le]
      obtain ⟨h1, h2⟩ := ih (2 * b) (by linarith) (by nlinarith [hf])
      refine ⟨hstep ▸ h1, Or.inl ?_⟩
      rw [hstep]
      rcases h2 with h2 | h2
      · exact h2
      · rw [h2]; linarith
    · have : doubleUp (n + 1) b = b := by simp [doubleUp, h]
      rw [this]
      exact ⟨le_of_not_lt h, Or.inr rfl⟩

theorem halveDown_main (n : ℕ) (b : ℚ) (hb : 0 < b) (hf : b ≤ 200 * 2 ^ n) :
    halveDown n b ≤ 200 ∧ (100 < halveDown n b ∨ halveDown n b = b) := by
  induction n generalizing b with
  | zero =>
    simp only [pow_zero, mul_one] at hf
    exact ⟨hf, Or.inr rfl⟩
  | succ n ih =>
    by_cases h : 200 < b
    · have hstep : halveDown (n + 1) b = halveDown n (b / 2) := by
        simp [halveDown, h]
      have hf2 : b / 2 ≤ 200 * 2 ^ n := by
        have : (200:ℚ) * 2 ^ (n + 1) = 2 * (200 * 2 ^ n) := by ring
        linarith [hf, this.symm.le]
      obtain ⟨h1, h2⟩ := ih (b / 2) (by linarith) hf2
      refine ⟨hstep ▸ h1, Or.inl ?_⟩
      rw [hstep]
      rcases h2 with h2 | h2
      · exact h2
      · rw [h2]; linarith
    · have : halveDown (n + 1) b = b := by simp [halveDown, h]
      rw [this]
      exact ⟨le_of_not_lt h, Or.inr rfl⟩

theorem doubleUp_irrel (n : ℕ) :
    ∀ (m : ℕ) (b : ℚ), 0 < b → 100 ≤ b * 2 ^ n → 100 ≤ b * 2 ^ m →
      doubleUp n b = doubleUp m b := by
  induction n with
  | zero =>
    intro m b _ hn _
    simp only [pow_zero, mul_one] at hn
    rw [doubleUp, doubleUp_id m b hn]
  | succ n ih =>
    intro m b hb hn hm
    cases m with
    | zero =>
      simp only [pow_zero, mul_one] at hm
      rw [doubleUp_id (n + 1) b hm, doubleUp]
    | succ m =>
      by_cases h : b < 100
      · have h1 : doubleUp (n + 1) b = doubleUp n (2 * b) := by simp [doubleUp, h]
        have h2 : doubleUp (m + 1) b = doubleUp m (2 * b) := by simp [doubleUp, h]
        rw [h1, h2]
        apply ih m (2 * b) (by linarith)
        · have he : b * 2 ^ (n + 1) = 2 * b * 2 ^ n := by ring
          linarith [he.symm.le]
        · have he : b * 2 ^ (m + 1) = 2 * b * 2 ^ m := by ring
          linarith [he.symm.le]
      · simp [doubleUp, h]

theorem halveDown_irrel (n : ℕ) :
    ∀ (m : ℕ) (b : ℚ), 0 < b → b ≤ 200 * 2 ^ n → b ≤ 200 * 2 ^ m →
      halveDown n b = halveDown m b := by
  induction n with
  | zero =>
    intro m b _ hn _
    simp only [pow_zero, mul_one] at hn
    rw [halveDown, halveDown_id m b hn]
  | succ n ih =>
    intro m b hb hn hm
    cases m with
    | zero =>
      simp only [pow_zero, mul_one] at hm
      rw [halveDown_id (n + 1) b hm, halveDown]
    | succ m =>
      by_cases h : 200 < b
      · have h1 : halveDown (n + 1) b = halveDown n (b / 2) := by simp [halveDown, h]
        have h2 : halveDown (m + 1) b = halveDown m (b / 2) := by simp [halveDown, h]
        rw [h1, h2]
        apply ih m (b / 2) (by linarith)
        · have he : (200:ℚ) * 2 ^ (n + 1) = 2 * (200 * 2 ^ n) := by ring
          linarith [he.le]
        · have he : (200:ℚ) * 2 ^ (m + 1) = 2 * (200 * 2 ^ m) := by ring
          linarith [he.le]
      · simp [halveDown, h]

theorem normalize_bpm_bounds (b : ℚ) (hb : 0 < b) :
    100 ≤ normalize_bpm b ∧ normalize_bpm b ≤ 200 := by
  unfold normalize_bpm
  obtain ⟨h1, _⟩ := doubleUp_main (dFuel b) b hb (dFuel_suff b hb)
  have hrpos : 0 < doubleUp (dFuel b) b := doubleUp_pos _ _ hb
  obtain ⟨h3, h4⟩ := halveDown_main (hFuel (doubleUp (dFuel b) b)) (doubleUp (dFuel b) b)
    hrpos (hFuel_suff _ hrpos)
  refine ⟨?_, h3⟩
  rcases h4 with h4 | h4
  · linarith
  · rw [h4]; exact h1

theorem normalize_bpm_double (b : ℚ) (hb : 0 < b) (hne : b ≠ 100) :
    normalize_bpm (2 * b) = normalize_bpm b := by
  have hb2 : (0:ℚ) < 2 * b := by linarith
  rcases lt_trichotomy b 100 with hlt | heq | hgt
  · -- b < 100: both normalizations are pure doubling chains ending in [100, 200)
    have hup : ∀ c : ℚ, 0 < c → c < 200 → normalize_bpm c = doubleUp (dFuel c) c := by
      intro c hc hc200
      unfold normalize_bpm
      obtain ⟨h1, h2⟩ := doubleUp_main (dFuel c) c hc (dFuel_suff c hc)
      have hle200 : doubleUp (dFuel c) c ≤ 200 := by
        rcases h2 with h2 | h2
        · linarith
        · rw [h2]; linarith
      rw [halveDown_id _ _ hle200]
    rw [hup b hb (by linarith), hup (2 * b) hb2 (by linarith)]
    -- dFuel b ≥ 1 because b < 100
    have hgt1 : (1:ℚ) < 100 / b := (one_lt_div hb).mpr hlt
    have hceil2 : (1:ℤ) < ⌈(100:ℚ) / b⌉ := by
      rw [Int.lt_ceil]
      exact_mod_cast hgt1
    have hfpos : 0 < dFuel b := by
      unfold dFuel
      omega
    obtain ⟨k, hk⟩ : ∃ k, dFuel b = k + 1 := ⟨dFuel b - 1, by omega⟩
    have hstep : doubleUp (dFuel b) b = doubleUp k (2 * b) := by
      rw [hk]
      simp [doubleUp, hlt]
    rw [hstep]
    apply doubleUp_irrel (dFuel (2 * b)) k (2 * b) hb2 (dFuel_suff _ hb2)
    have hsuff := dFuel_suff b hb
    rw [hk] at hsuff
    have he : b * 2 ^ (k + 1) = 2 * b * 2 ^ k := by ring
    linarith [he.symm.le]
  · exact absurd heq hne
  · -- 100 < b: the doubling loop is the identity on both b and 2b
    have hid1 : doubleUp (dFuel b) b = b := doubleUp_id _ _ (by linarith)
    have hid2 : doubleUp (dFuel (2 * b)) (2 * b) = 2 * b := doubleUp_id _ _ (by linarith)
    have h2bgt : (200:ℚ) < 2 * b := by linarith
    have hhpos : 0 < hFuel (2 * b) := by
      unfold hFuel
      have : (0:ℤ) < ⌈2 * b⌉ := Int.ceil_pos.mpr hb2
      omega
    obtain ⟨k, hk⟩ : ∃ k, hFuel (2 * b) = k + 1 := ⟨hFuel (2 * b) - 1, by omega⟩
    have hstep : halveDown (hFuel (2 * b)) (2 * b) = halveDown k b := by
      rw [hk]
      simp only [halveDown, if_pos h2bgt]
      norm_num
    unfold normalize_bpm
    rw [hid1, hid2, hstep]
    by_cases hble : b ≤ 200
    · rw [halveDown_id k b hble, halveDown_id _ _ hble]
    · apply halveDown_irrel k (hFuel b) b hb
      · have hsuff := hFuel_suff (2 * b) hb2
        rw [hk] at hsuff
        have he : (200:ℚ) * 2 ^ (k + 1) = 2 * (200 * 2 ^ k) := by ring
        linarith [he.le]
      · exact hFuel_suff b hb

/-- A BPM already inside the band is fixed by normalize_bpm. -/
theorem normalize_bpm_in_band (b : ℚ) (h1 : 100 ≤ b) (h2 : b ≤ 200) :
    normalize_bpm b = b := by
  unfold normalize_bpm
  rw [doubleUp_id _ _ h1, halveDown_id _ _ h2]

/-- A BPM one octave below the band is doubled once by normalize_bpm. -/
theorem normalize_bpm_half_band (b : ℚ) (h0 : 0 < b) (hb : b < 100)
    (h1 : 100 ≤ 2 * b) (h2 : 2 * b ≤ 200) : normalize_bpm b = 2 * b := by
  rw [← normalize_bpm_double b h0 (by linarith)]
  exact normalize_bpm_in_band (2 * b) h1 h2

/-! ### Small list helpers (numpy operations used by the source) -/

/-- Arithmetic mean (np.mean); 0 on the empty list, which the source guards. -/
def mean (xs : List ℚ) : ℚ := xs.sum / xs.length

/-- Successive differences (np.diff). -/
def diffs : List ℚ → List ℚ
  | a :: b :: t => (b - a) :: diffs (b :: t)
  | _ => []

/-- Insertion into a sorted list (helper for the median's sort). -/
def insertSorted (x : ℚ) : List ℚ → List ℚ
  | [] => [x]
  | y :: ys => if x ≤ y then x :: y :: ys else y :: insertSorted x ys

/-- Sort ascending (helper for np.median). -/
def sortAsc (xs : List ℚ) : List ℚ := xs.foldr insertSorted []

/-- np.median: middle element of the sorted list, or the average of the two
middle elements for even length. -/
def median (xs : List ℚ) : ℚ :=
  if xs.length % 2 = 1 then (sortAsc xs).getD (xs.length / 2) 0
  else ((sortAsc xs).getD (xs.length / 2 - 1) 0 + (sortAsc xs).getD (xs.length / 2) 0) / 2

/-- Maximum of a list (np.max); 0 on the empty list, which the source guards. -/
def maxList : List ℚ → ℚ
  | [] => 0
  | x :: t => t.foldl max x

/-- Minimum of a list (np.min); 0 on the empty list, which the source guards. -/
def minList : List ℚ → ℚ
  | [] => 0
  | x :: t => t.foldl min x

/-- np.argmax: index of the first occurrence of the maximum. -/
def argmaxIdx : List ℚ → ℕ
  | [] => 0
  | [_] => 0
  | x :: y :: t =>
    if (y :: t).getD (argmaxIdx (y :: t)) 0 ≤ x then 0 else argmaxIdx (y :: t) + 1

theorem argmaxIdx_cons_cons (x y : ℚ) (t : List ℚ) :
    argmaxIdx (x :: y :: t) =
      if (y :: t).getD (argmaxIdx (y :: t)) 0 ≤ x then 0 else argmaxIdx (y :: t) + 1 :=
  rfl

theorem argmaxIdx_lt : ∀ (xs : List ℚ), xs ≠ [] → argmaxIdx xs < xs.length
  | [], h => absurd rfl h
  | [x], _ => by simp [argmaxIdx]
  | x :: y :: t, _ => by
    have ih := argmaxIdx_lt (y :: t) (by simp)
    rw [argmaxIdx_cons_cons]
    split_ifs with hc
    · simp
    · simp only [List.length_cons] at ih ⊢
      omega

theorem argmaxIdx_le : ∀ (xs : List ℚ) (j : ℕ), j < xs.length →
    xs.getD j 0 ≤ xs.getD (argmaxIdx xs) 0
  | [], j, h => by simp at h
  | [x], j, h => by
    have hj : j = 0 := by simpa using h
    subst hj
    simp [argmaxIdx]
  | x :: y :: t, j, h => by
    rw [argmaxIdx_cons_cons]
    split_ifs with hc
    · cases j with
      | zero => exact le_refl _
      | succ j =>
        have hlt : j < (y :: t).length := by
          simp only [List.length_cons] at h ⊢
          omega
        have hrec := argmaxIdx_le (y :: t) j hlt
        rw [List.getD_cons_succ, List.getD_cons_zero]
        exact le_trans hrec hc
    · cases j with
      | zero =>
        rw [List.getD_cons_zero, List.getD_cons_succ]
        exact le_of_lt (not_le.mp hc)
      | succ j =>
        have hlt : j < (y :: t).length := by
          simp only [List.length_cons] at h ⊢
          omega
        rw [List.getD_cons_succ, List.getD_cons_succ]
        exact argmaxIdx_le (y :: t) j hlt

/-! ### BPM consensus (analyzer.py, _extract_rhythm, lines 745-826)

The five estimator readings are inputs (they wrap the black-box Essentia
calls); candidate assembly, octave normalization, agreement scoring and
winner selection are translated directly. -/

/-- A tempo candidate: (bpm, weighted confidence, source tag), as appended
to the candidates list in _extract_rhythm. -/
structure Cand where
  bpm : ℚ
  conf : ℚ
  src : String
deriving DecidableEq

def defaultCand : Cand := ⟨0, 0, ""⟩

/-- bpm_similar from _extract_rhythm: ratio within 4% of 1 after trying the
octave multipliers 1, 2 and 0.5. -/
def bpm_similar (a b : ℚ) : Bool :=
  if b = 0 then false
  else
    (decide ((24/25 : ℚ) ≤ a / b * 1 ∧ a / b * 1 ≤ 26/25))
    || (decide ((24/25 : ℚ) ≤ a / b * 2 ∧ a / b * 2 ≤ 26/25))
    || (decide ((24/25 : ℚ) ≤ a / b * (1/2) ∧ a / b * (1/2) ≤ 26/25))

/-- Octave-normalize every candidate, keeping confidence and tag. -/
def normalizeList (cands : List Cand) : List Cand :=
  cands.map fun c => ⟨normalize_bpm c.bpm, c.conf, c.src⟩

/-- Agreement score of the i-th normalized candidate: its own weighted
confidence plus 0.3 times the confidence of every other similar candidate. -/
def scoreAt (norm : List Cand) (i : ℕ) : ℚ :=
  (norm.getD i defaultCand).conf +
    (((List.range norm.length).filter fun j =>
        decide (j ≠ i) &&
          bpm_similar (norm.getD i defaultCand).bpm (norm.getD j defaultCand).bpm).map
      fun j => (norm.getD j defaultCand).conf * (3/10)).sum

/-- The scored list: (normalized bpm, agreement score, tag) per candidate. -/
def scoredList (norm : List Cand) : List (ℚ × ℚ × String) :=
  (List.range norm.length).map fun i =>
    ((norm.getD i defaultCand).bpm, scoreAt norm i, (norm.getD i defaultCand).src)

/-- Head of the stable descending sort by score: the earliest candidate
achieving the maximal agreement score (scored.sort(reverse=True)[0]). -/
def pickBest (s : ℚ × ℚ × String) (t : List (ℚ × ℚ × String)) : ℚ × ℚ × String :=
  t.foldl (fun b x => if b.2.1 < x.2.1 then x else b) s

/-- Consensus over normalized candidates: winner selection, integer rounding
of the winning BPM and the confidence formula min(1, score/3) with the final
round to 3 decimals applied at the return statement. -/
def consensusOfNorm (norm : List Cand) : ℚ × ℚ :=
  (((pyRound (pickBest ((scoredList norm).headD (0, 0, "")) (scoredList norm).tail).1 : ℤ) : ℚ),
    pyRoundTo 3 (min 1 ((pickBest ((scoredList norm).headD (0, 0, "")) (scoredList norm).tail).2.1 / 3)))

/-- The BPM consensus of _extract_rhythm: fixed fallback (120, 0) on an
empty candidate list, otherwise normalize, score and select. -/
def consensusBpm (cands : List Cand) : ℚ × ℚ :=
  if cands = [] then (120, 0) else consensusOfNorm (normalizeList cands)

theorem pickBest_mem : ∀ (t : List (ℚ × ℚ × String)) (s), pickBest s t ∈ s :: t
  | [], s => by simp [pickBest]
  | x :: t, s => by
    have hstep : pickBest s (x :: t) = pickBest (if s.2.1 < x.2.1 then x else s) t := by
      simp [pickBest]
    have ih := pickBest_mem t (if s.2.1 < x.2.1 then x else s)
    rw [hstep]
    rcases List.mem_cons.mp ih with h | h
    · rw [h]
      split_ifs
      · simp
      · simp
    · simp [h]

theorem pickBest_score_ge :
    ∀ (t : List (ℚ × ℚ × String)) (s), ∀ z ∈ s :: t, z.2.1 ≤ (pickBest s t).2.1
  | [], s, z, hz => by
    rcases List.mem_cons.mp hz with h | h
    · rw [h]; simp [pickBest]
    · simp at h
  | x :: t, s, z, hz => by
    have hstep : pickBest s (x :: t) = pickBest (if s.2.1 < x.2.1 then x else s) t := by
      simp [pickBest]
    rw [hstep]
    have ih := pickBest_score_ge t (if s.2.1 < x.2.1 then x else s)
    have hhead : (if s.2.1 < x.2.1 then x else s).2.1 ≤
        (pickBest (if s.2.1 < x.2.1 then x else s) t).2.1 :=
      ih _ (List.mem_cons_self _ _)
    rcases List.mem_cons.mp hz with h | h
    · rw [h]
      refine le_trans ?_ hhead
      split_ifs with hlt
      · exact le_of_lt hlt
      · exact le_refl _
    · rcases List.mem_cons.mp h with h2 | h2
      · rw [h2]
        refine le_trans ?_ hhead
        split_ifs with hlt
        · exact le_refl _
        · exact le_of_not_lt hlt
      · exact ih z (List.mem_cons_of_mem _ h2)

/-- getD through a map, for indices in range. -/
theorem getD_map_cand (f : Cand → Cand) :
    ∀ (l : List Cand) (i : ℕ), i < l.length →
      (l.map f).getD i defaultCand = f (l.getD i defaultCand)
  | [], i, h => by simp at h
  | c :: l, 0, _ => by simp
  | c :: l, i + 1, h => by
    simp only [List.map_cons, List.getD_cons_succ]
    exact getD_map_cand f l i (by simpa using h)

/-! ### Candidate assembly (analyzer.py, _extract_rhythm, lines 745-768) -/

/-- The denser beat list: beats_multi if strictly longer than beats_degara. -/
def pickBeats (bm bd : List ℚ) : List ℚ := if bd.length < bm.length then bm else bd

/-- Method 5: BPM from the median of beat intervals inside (0.25 s, 2 s),
0 when fewer than 3 beats or fewer than 3 valid intervals. -/
def bpm_from_beats (beats : List ℚ) : ℚ :=
  if 2 < beats.length then
    if 2 < ((diffs beats).filter fun x => decide ((1/4 : ℚ) < x) && decide (x < 2)).length then
      60 / median ((diffs beats).filter fun x => decide ((1/4 : ℚ) < x) && decide (x < 2))
    else 0
  else 0

/-- Candidate assembly: each estimator reading joins the list only under its
0-lt-bpm guard, with the fixed per-source confidence multipliers. -/
def buildCandidates (cnn multi degara loop : ℚ × ℚ) (bfb : ℚ) : List Cand :=
  (if 0 < cnn.1 then [⟨cnn.1, cnn.2 * 3, "cnn"⟩] else []) ++
  (if 0 < multi.1 then [⟨multi.1, multi.2 * (7/10), "multi"⟩] else []) ++
  (if 0 < degara.1 then [⟨degara.1, degara.2 * (7/10), "degara"⟩] else []) ++
  (if 0 < loop.1 then [⟨loop.1, loop.2, "loop"⟩] else []) ++
  (if 0 < bfb then [⟨bfb, 3/5, "beats"⟩] else [])

/-- The (bpm, confidence) part of _extract_rhythm as a function of the five
estimator readings and the two beat lists. -/
def extractRhythmCore (cnn multi degara loop : ℚ × ℚ) (bm bd : List ℚ) : ℚ × ℚ :=
  consensusBpm (buildCandidates cnn multi degara loop (bpm_from_beats (pickBeats bm bd)))

/-! ### Claim C7 -/

/-- C7: on an empty candidate set the BPM consensus returns the fixed
positive fallback BPM 120 together with confidence exactly 0; it never
fails. -/
theorem consensus_empty_fallback :
    consensusBpm [] = (120, 0) ∧ (0 : ℚ) < (consensusBpm []).1 := by
  constructor
  · rfl
  · rw [show consensusBpm [] = (120, 0) from rfl]
    norm_num

/-! ### Claim C6 -/

/-- C6 counterexample: octave normalization of 200 returns 200 itself, so the
result is not strictly below 200 and the codomain is not the half-open
interval that the claim states. -/
theorem normalize_bpm_attains_200 :
    normalize_bpm 200 = 200 ∧ ¬ normalize_bpm 200 < 200 := by
  have h : normalize_bpm 200 = 200 := normalize_bpm_in_band 200 (by norm_num) (by norm_num)
  exact ⟨h, by rw [h]; exact lt_irrefl 200⟩

/-- C6 (amended): for every bpm strictly greater than 0, octave
normalization returns a value in the closed interval from 100 to 200; the
upper endpoint 200 is attainable, so the band is not half-open. -/
theorem normalize_bpm_range (b : ℚ) (hb : 0 < b) :
    100 ≤ normalize_bpm b ∧ normalize_bpm b ≤ 200 :=
  normalize_bpm_bounds b hb

/-- Witness for normalize_bpm_range at bpm 3. -/
theorem normalize_bpm_range_witness :
    (0 : ℚ) < 3 ∧ 100 ≤ normalize_bpm 3 ∧ normalize_bpm 3 ≤ 200 :=
  ⟨by norm_num, normalize_bpm_range 3 (by norm_num)⟩

/-! ### Claim C3 -/

/-- Doubling every candidate BPM before normalization. -/
def doubleAll (cands : List Cand) : List Cand :=
  cands.map fun c => ⟨2 * c.bpm, c.conf, c.src⟩

/-- C3 counterexample: for the single candidate at exactly 100 BPM the
consensus returns 100, but after doubling every BPM it returns 200, because
normalize keeps both 100 and 200 fixed; octave invariance fails there. -/
theorem consensus_double_boundary_100 :
    (consensusBpm [⟨100, 1, "cnn"⟩]).1 = 100
    ∧ (consensusBpm (doubleAll [⟨100, 1, "cnn"⟩])).1 = 200
    ∧ (100 : ℚ) ≠ 200 := by
  have h1 : normalize_bpm 100 = 100 := normalize_bpm_in_band 100 (by norm_num) (by norm_num)
  have h2 : normalize_bpm 200 = 200 := normalize_bpm_in_band 200 (by norm_num) (by norm_num)
  refine ⟨?_, ?_, by norm_num⟩
  · norm_num [consensusBpm, consensusOfNorm, normalizeList, scoredList, scoreAt,
      pickBest, bpm_similar, pyRound, List.range_succ, List.filter, h1]
  · norm_num [doubleAll, consensusBpm, consensusOfNorm, normalizeList, scoredList, scoreAt,
      pickBest, bpm_similar, pyRound, List.range_succ, List.filter, h2]

/-- C3 (amended): octave invariance of the consensus holds for every
candidate list whose BPMs are positive and none exactly 100: doubling every
candidate BPM before normalization leaves the consensus output unchanged.
At exactly 100 BPM it fails, since normalize fixes both 100 and 200. -/
theorem consensus_double_invariant (cands : List Cand)
    (h : ∀ c ∈ cands, 0 < c.bpm ∧ c.bpm ≠ 100) :
    consensusBpm (doubleAll cands) = consensusBpm cands := by
  have hn : normalizeList (doubleAll cands) = normalizeList cands := by
    unfold normalizeList doubleAll
    rw [List.map_map]
    apply List.map_congr_left
    intro c hc
    obtain ⟨h1, h2⟩ := h c hc
    simp only [Function.comp_apply]
    rw [normalize_bpm_double c.bpm h1 h2]
  by_cases hc : cands = []
  · subst hc
    rfl
  · have hd : doubleAll cands ≠ [] := by
      simp [doubleAll, hc]
    unfold consensusBpm
    rw [if_neg hc, if_neg hd, hn]

/-- Witness for consensus_double_invariant on a two-candidate list. -/
theorem consensus_double_invariant_witness :
    (∀ c ∈ [(⟨128, 9/10, "cnn"⟩ : Cand), ⟨64, 3/5, "beats"⟩], 0 < c.bpm ∧ c.bpm ≠ 100)
    ∧ consensusBpm (doubleAll [⟨128, 9/10, "cnn"⟩, ⟨64, 3/5, "beats"⟩])
        = consensusBpm [⟨128, 9/10, "cnn"⟩, ⟨64, 3/5, "beats"⟩] :=
  ⟨by norm_num [List.forall_mem_cons], consensus_double_invariant _ (by norm_num [List.forall_mem_cons])⟩

/-! ### Claim C1 -/

/-- C1 counterexample: candidate a has the strictly greatest weighted
confidence (1 against 0.9 and 0.9), but the two agreeing 120-BPM candidates
boost each other by the 30% agreement bonus and one of them wins: the
consensus returns 120, not the dominant candidate's normalized BPM 150. -/
theorem consensus_strict_confidence_insufficient :
    ((9:ℚ)/10 < 1 ∧ ∀ c ∈ [(⟨120, 9/10, "multi"⟩ : Cand), ⟨120, 9/10, "degara"⟩], c.conf < 1)
    ∧ (consensusBpm [⟨150, 1, "cnn"⟩, ⟨120, 9/10, "multi"⟩, ⟨120, 9/10, "degara"⟩]).1 = 120
    ∧ normalize_bpm 150 = 150
    ∧ (120 : ℚ) ≠ 150 := by
  have h1 : normalize_bpm 150 = 150 := normalize_bpm_in_band 150 (by norm_num) (by norm_num)
  have h2 : normalize_bpm 120 = 120 := normalize_bpm_in_band 120 (by norm_num) (by norm_num)
  refine ⟨⟨by norm_num, by norm_num [List.forall_mem_cons]⟩, ?_, h1, by norm_num⟩
  unfold consensusBpm
  rw [if_neg (by simp :
    ¬ ([(⟨150, 1, "cnn"⟩ : Cand), ⟨120, 9/10, "multi"⟩, ⟨120, 9/10, "degara"⟩] = []))]
  norm_num [consensusOfNorm, normalizeList, scoredList, scoreAt,
    pickBest, bpm_similar, pyRound, List.range_succ, List.filter, h1, h2]

/-- C1 (amended): for every candidate set in which the i-th candidate's
accumulated agreement score (its weighted confidence plus 30% of the
weighted confidence of every agreeing other candidate, on octave-normalized
BPMs) is strictly greater than every other candidate's accumulated score,
the consensus returns that candidate's octave-normalized BPM rounded to the
nearest integer. -/
theorem consensus_strict_score_winner (cands : List Cand) (i : ℕ)
    (hi : i < cands.length)
    (hmax : ∀ j, j < cands.length → j ≠ i →
      scoreAt (normalizeList cands) j < scoreAt (normalizeList cands) i) :
    (consensusBpm cands).1
      = ((pyRound (normalize_bpm ((cands.getD i defaultCand).bpm)) : ℤ) : ℚ) := by
  have hne : cands ≠ [] := by
    intro hc
    rw [hc] at hi
    simp at hi
  have hlen : (normalizeList cands).length = cands.length := by
    simp [normalizeList]
  set norm := normalizeList cands with hnorm
  set f : ℕ → ℚ × ℚ × String := fun k =>
    ((norm.getD k defaultCand).bpm, scoreAt norm k, (norm.getD k defaultCand).src) with hf
  have hsc : scoredList norm = (List.range norm.length).map f := rfl
  have hscne : scoredList norm ≠ [] := by
    rw [hsc]
    simp only [ne_eq, List.map_eq_nil_iff, List.range_eq_nil]
    omega
  obtain ⟨s, t, hst⟩ := List.exists_cons_of_ne_nil hscne
  have hbest : consensusBpm cands = (((pyRound (pickBest s t).1 : ℤ) : ℚ),
      pyRoundTo 3 (min 1 ((pickBest s t).2.1 / 3))) := by
    unfold consensusBpm consensusOfNorm
    rw [if_neg hne, ← hnorm, hst]
    rfl
  have hmem : pickBest s t ∈ scoredList norm := by
    rw [hst]
    exact pickBest_mem t s
  rw [hsc] at hmem
  obtain ⟨j, hjmem, hjeq⟩ := List.mem_map.mp hmem
  have hj : j < cands.length := by
    rw [← hlen]
    exact List.mem_range.mp hjmem
  have hge : (f i).2.1 ≤ (pickBest s t).2.1 := by
    apply pickBest_score_ge t s
    rw [← hst, hsc]
    exact List.mem_map.mpr ⟨i, List.mem_range.mpr (by omega), rfl⟩
  have hji : j = i := by
    by_contra hcon
    have h1 : scoreAt norm j < scoreAt norm i := hmax j hj hcon
    have h2 : (pickBest s t).2.1 = scoreAt norm j := by rw [← hjeq]
    have h3 : (f i).2.1 = scoreAt norm i := rfl
    rw [h2] at hge
    rw [h3] at hge
    linarith
  subst hji
  have hb : (pickBest s t).1 = (norm.getD j defaultCand).bpm := by rw [← hjeq]
  have hbpm : (norm.getD j defaultCand).bpm
      = normalize_bpm ((cands.getD j defaultCand).bpm) := by
    rw [hnorm]
    unfold normalizeList
    rw [getD_map_cand _ cands j hj]
  rw [hbest]
  simp only
  rw [hb, hbpm]

/-- Witness for consensus_strict_score_winner on a concrete two-candidate
list where the first candidate's agreement score strictly dominates. -/
theorem consensus_strict_score_winner_witness :
    (0 < ([(⟨128, 9/10, "cnn"⟩ : Cand), ⟨150, 1/5, "loop"⟩] : List Cand).length
      ∧ ∀ j, j < ([(⟨128, 9/10, "cnn"⟩ : Cand), ⟨150, 1/5, "loop"⟩] : List Cand).length → j ≠ 0 →
          scoreAt (normalizeList [⟨128, 9/10, "cnn"⟩, ⟨150, 1/5, "loop"⟩]) j
            < scoreAt (normalizeList [⟨128, 9/10, "cnn"⟩, ⟨150, 1/5, "loop"⟩]) 0)
    ∧ (consensusBpm [⟨128, 9/10, "cnn"⟩, ⟨150, 1/5, "loop"⟩]).1
        = ((pyRound (normalize_bpm ((([(⟨128, 9/10, "cnn"⟩ : Cand), ⟨150, 1/5, "loop"⟩] : List Cand).getD 0 defaultCand).bpm)) : ℤ) : ℚ) :=
  ⟨⟨by norm_num, by
      have h1 : normalize_bpm 128 = 128 := normalize_bpm_in_band 128 (by norm_num) (by norm_num)
      have h2 : normalize_bpm 150 = 150 := normalize_bpm_in_band 150 (by norm_num) (by norm_num)
      intro j hj hne
      have hj1 : j = 1 := by
        simp only [List.length_cons, List.length_nil] at hj
        omega
      subst hj1
      norm_num [normalizeList, scoreAt, bpm_similar, List.range_succ, List.filter, h1, h2]⟩,
    consensus_strict_score_winner _ 0 (by norm_num) (by
      have h1 : normalize_bpm 128 = 128 := normalize_bpm_in_band 128 (by norm_num) (by norm_num)
      have h2 : normalize_bpm 150 = 150 := normalize_bpm_in_band 150 (by norm_num) (by norm_num)
      intro j hj hne
      have hj1 : j = 1 := by
        simp only [List.length_cons, List.length_nil] at hj
        omega
      subst hj1
      norm_num [normalizeList, scoreAt, bpm_similar, List.range_succ, List.filter, h1, h2])⟩

/-! ### Claim C5 -/

/-- Modelled from the spec: the optional interval-based refinement of the
winning BPM (spec.md section 4.1 step 5) — with more than 10 beat events,
recompute the winner from the mean of the beat-to-beat intervals within 5%
of the interval implied by the winning BPM, and accept the refinement only
if it shifts the BPM by less than 1.0. No such step exists in
src/apps/analyzer/app/analyzer.py. -/
def specRefineBpm (beats : List ℚ) (winner : ℚ) : ℚ :=
  if 10 < beats.length then
    if ((diffs beats).filter fun x =>
          decide (60 / winner * (19/20) ≤ x) && decide (x ≤ 60 / winner * (21/20))) = [] then
      winner
    else
      if |60 / mean ((diffs beats).filter fun x =>
            decide (60 / winner * (19/20) ≤ x) && decide (x ≤ 60 / winner * (21/20))) - winner| < 1 then
        60 / mean ((diffs beats).filter fun x =>
            decide (60 / winner * (19/20) ≤ x) && decide (x ≤ 60 / winner * (21/20)))
      else winner
  else winner

/-- Twelve beat events spaced exactly 0.47 s apart (about 127.66 BPM). -/
def beatsTwelve : List ℚ :=
  [0, 47/100, 94/100, 141/100, 188/100, 235/100,
   282/100, 329/100, 376/100, 423/100, 470/100, 517/100]

/-- C5 counterexample: with 12 beat events at 0.47 s spacing and a dominant
TempoCNN reading of 128 BPM, the code returns exactly 128: the spec's
interval refinement would instead accept 6000/47 (a shift of 16/47 < 1), so
the claimed recomputation from interval means does not happen in the code. -/
theorem rhythm_refinement_absent :
    (extractRhythmCore (128, 9/10) (0, 0) (0, 0) (0, 0) beatsTwelve []).1 = 128
    ∧ 10 < beatsTwelve.length
    ∧ specRefineBpm beatsTwelve 128 = 6000/47
    ∧ (6000/47 : ℚ) ≠ 128 := by
  have hbfb : bpm_from_beats (pickBeats beatsTwelve []) = 6000/47 := by
    norm_num [pickBeats, beatsTwelve, bpm_from_beats, diffs, median, sortAsc,
      insertSorted, List.filter]
  have hn1 : normalize_bpm 128 = 128 := normalize_bpm_in_band 128 (by norm_num) (by norm_num)
  have hn2 : normalize_bpm (6000/47) = 6000/47 :=
    normalize_bpm_in_band (6000/47) (by norm_num) (by norm_num)
  refine ⟨?_, by norm_num [beatsTwelve], ?_, by norm_num⟩
  · unfold extractRhythmCore
    rw [hbfb]
    have hcands : buildCandidates (128, 9/10) (0, 0) (0, 0) (0, 0) (6000/47)
        = [⟨128, 27/10, "cnn"⟩, ⟨6000/47, 3/5, "beats"⟩] := by
      norm_num [buildCandidates]
    rw [hcands]
    unfold consensusBpm
    rw [if_neg (by simp : ¬ ([(⟨128, 27/10, "cnn"⟩ : Cand), ⟨6000/47, 3/5, "beats"⟩] = []))]
    norm_num [consensusOfNorm, normalizeList, scoredList, scoreAt,
      pickBest, bpm_similar, pyRound, List.range_succ, List.filter, hn1, hn2]
  · norm_num [specRefineBpm, beatsTwelve, diffs, List.filter, mean, abs_sub_lt_iff]
    have habs : |(16:ℚ)/47| < 1 := by
      rw [abs_of_nonneg (by norm_num : (0:ℚ) ≤ 16/47)]
      norm_num
    rw [if_neg (by simp), if_pos habs]

/-- Helper: the consensus always returns an integer-valued BPM. -/
theorem consensusBpm_int (cands : List Cand) :
    ∃ z : ℤ, (consensusBpm cands).1 = (z : ℚ) := by
  unfold consensusBpm
  by_cases h : cands = []
  · rw [if_pos h]
    exact ⟨120, by norm_num⟩
  · rw [if_neg h]
    exact ⟨_, rfl⟩

/-- C5 (amended): no post-consensus interval refinement exists. Instead,
whenever the denser beat list yields a positive median-interval BPM, that
BPM joins the consensus as a candidate with fixed confidence 0.6, and the
final BPM is always the rounded (hence integer) normalized winner — never a
fractional value recomputed from a mean of intervals. -/
theorem rhythm_beats_candidate_and_integer_bpm
    (cnn multi degara loop : ℚ × ℚ) (bm bd : List ℚ)
    (hb : 0 < bpm_from_beats (pickBeats bm bd)) :
    (⟨bpm_from_beats (pickBeats bm bd), 3/5, "beats"⟩ : Cand)
        ∈ buildCandidates cnn multi degara loop (bpm_from_beats (pickBeats bm bd))
    ∧ ∃ z : ℤ, (extractRhythmCore cnn multi degara loop bm bd).1 = (z : ℚ) := by
  constructor
  · unfold buildCandidates
    rw [if_pos hb]
    simp
  · exact consensusBpm_int _

/-- Witness for rhythm_beats_candidate_and_integer_bpm at the concrete
twelve-beat input. -/
theorem rhythm_beats_candidate_and_integer_bpm_witness :
    0 < bpm_from_beats (pickBeats beatsTwelve [])
    ∧ ((⟨bpm_from_beats (pickBeats beatsTwelve []), 3/5, "beats"⟩ : Cand)
        ∈ buildCandidates (128, 9/10) (0, 0) (0, 0) (0, 0)
            (bpm_from_beats (pickBeats beatsTwelve []))
      ∧ ∃ z : ℤ, (extractRhythmCore (128, 9/10) (0, 0) (0, 0) (0, 0) beatsTwelve []).1 = (z : ℚ)) := by
  have hbfb : bpm_from_beats (pickBeats beatsTwelve []) = 6000/47 := by
    norm_num [pickBeats, beatsTwelve, bpm_from_beats, diffs, median, sortAsc,
      insertSorted, List.filter]
  refine ⟨by rw [hbfb]; norm_num, ?_⟩
  exact rhythm_beats_candidate_and_integer_bpm (128, 9/10) (0, 0) (0, 0) (0, 0)
    beatsTwelve [] (by rw [hbfb]; norm_num)

/-! ### Claim C10 -/

/-- Helper: membership in an if-guarded singleton gives the guard and the
equality. -/
theorem mem_ite_singleton {P : Prop} [Decidable P] {x c : Cand}
    (h : c ∈ if P then [x] else []) : P ∧ c = x := by
  split_ifs at h with hp
  · exact ⟨hp, List.mem_singleton.mp h⟩
  · simp at h

/-- C10: every candidate the code constructs has a strictly positive BPM
(each estimator result joins the list only under a positivity guard), and
for such BPMs both normalization loops reach their exit conditions within
the allotted fuel — extra fuel never changes either loop's result — so the
octave normalization, and with it the whole consensus, is total on the
candidates the code builds. -/
theorem candidate_bpms_positive_loops_terminate
    (cnn multi degara loop : ℚ × ℚ) (bm bd : List ℚ) :
    ∀ c ∈ buildCandidates cnn multi degara loop (bpm_from_beats (pickBeats bm bd)),
      0 < c.bpm
      ∧ ¬ doubleUp (dFuel c.bpm) c.bpm < 100
      ∧ (∀ k, doubleUp (dFuel c.bpm + k) c.bpm = doubleUp (dFuel c.bpm) c.bpm)
      ∧ ¬ 200 < normalize_bpm c.bpm
      ∧ (∀ k, halveDown (hFuel (doubleUp (dFuel c.bpm) c.bpm) + k) (doubleUp (dFuel c.bpm) c.bpm)
            = normalize_bpm c.bpm) := by
  intro c hc
  have hpos : 0 < c.bpm := by
    unfold buildCandidates at hc
    rcases List.mem_append.mp hc with h4 | h5
    · rcases List.mem_append.mp h4 with h3 | hlp
      · rcases List.mem_append.mp h3 with h2 | hdg
        · rcases List.mem_append.mp h2 with h1 | hmu
          · obtain ⟨hp, he⟩ := mem_ite_singleton h1
            subst he
            exact hp
          · obtain ⟨hp, he⟩ := mem_ite_singleton hmu
            subst he
            exact hp
        · obtain ⟨hp, he⟩ := mem_ite_singleton hdg
          subst he
          exact hp
      · obtain ⟨hp, he⟩ := mem_ite_singleton hlp
        subst he
        exact hp
    · obtain ⟨hp, he⟩ := mem_ite_singleton h5
      subst he
      exact hp
  have hsuffD := dFuel_suff c.bpm hpos
  obtain ⟨hge100, _⟩ := doubleUp_main (dFuel c.bpm) c.bpm hpos hsuffD
  have hrpos : 0 < doubleUp (dFuel c.bpm) c.bpm := doubleUp_pos _ _ hpos
  have hsuffH := hFuel_suff (doubleUp (dFuel c.bpm) c.bpm) hrpos
  refine ⟨hpos, not_lt.mpr hge100, ?_, ?_, ?_⟩
  · intro k
    apply doubleUp_irrel _ _ _ hpos _ hsuffD
    rw [pow_add]
    have h2 : (1:ℚ) ≤ 2 ^ k := one_le_pow₀ (by norm_num)
    have hp : (0:ℚ) < c.bpm * 2 ^ dFuel c.bpm := by positivity
    calc (100:ℚ) ≤ c.bpm * 2 ^ dFuel c.bpm := hsuffD
      _ ≤ c.bpm * 2 ^ dFuel c.bpm * 2 ^ k := le_mul_of_one_le_right (le_of_lt hp) h2
      _ = c.bpm * (2 ^ dFuel c.bpm * 2 ^ k) := by ring
  · exact not_lt.mpr (normalize_bpm_bounds c.bpm hpos).2
  · intro k
    show halveDown _ _ = normalize_bpm c.bpm
    unfold normalize_bpm
    apply halveDown_irrel _ _ _ hrpos _ hsuffH
    rw [pow_add]
    have h2 : (1:ℚ) ≤ 2 ^ k := one_le_pow₀ (by norm_num)
    have hp : (0:ℚ) < 200 * 2 ^ hFuel (doubleUp (dFuel c.bpm) c.bpm) := by positivity
    calc doubleUp (dFuel c.bpm) c.bpm ≤ 200 * 2 ^ hFuel (doubleUp (dFuel c.bpm) c.bpm) := hsuffH
      _ ≤ 200 * 2 ^ hFuel (doubleUp (dFuel c.bpm) c.bpm) * 2 ^ k :=
          le_mul_of_one_le_right (le_of_lt hp) h2
      _ = 200 * (2 ^ hFuel (doubleUp (dFuel c.bpm) c.bpm) * 2 ^ k) := by ring

/-- Witness for candidate_bpms_positive_loops_terminate at a concrete
single-candidate input. -/
theorem candidate_bpms_positive_loops_terminate_witness :
    0 < (Cand.bpm ⟨128, 3, "cnn"⟩) ∧
      ¬ doubleUp (dFuel (Cand.bpm ⟨128, 3, "cnn"⟩)) (Cand.bpm ⟨128, 3, "cnn"⟩) < 100 := by
  have hmem : (⟨128, 3, "cnn"⟩ : Cand)
      ∈ buildCandidates (128, 1) (0, 0) (0, 0) (0, 0) (bpm_from_beats (pickBeats [] [])) := by
    norm_num [buildCandidates, bpm_from_beats, pickBeats, diffs]
  have h := candidate_bpms_positive_loops_terminate (128, 1) (0, 0) (0, 0) (0, 0) [] []
    ⟨128, 3, "cnn"⟩ hmem
  exact ⟨h.1, h.2.1⟩

/-! ### Beat-offset detection (analyzer.py, _extract_beat_offset_from_drop,
lines 601-689)

The beat tracker's timestamps and the per-beat bass energies wrap black-box
Essentia calls and are inputs; all window arithmetic, bucketing by metrical
position and the final modulo/rounding are translated directly. -/

def SAMPLE_RATE : ℕ := 44100

/-- int(0.03 * SAMPLE_RATE), the 30 ms half-window in samples. -/
def window_samples : ℤ := pyInt ((3/100 : ℚ) * (SAMPLE_RATE : ℚ))

/-- Length of full_audio[start_sample:end_sample] for the drop segment. -/
def segLenOf (audioLen : ℕ) (highlight : ℚ) : ℤ :=
  max 0 (min (pyInt (min ((audioLen : ℚ) / (SAMPLE_RATE : ℚ)) (highlight + 20) * (SAMPLE_RATE : ℚ)))
      (audioLen : ℤ)
    - max 0 (pyInt (max 0 (highlight - 1) * (SAMPLE_RATE : ℚ))))

/-- The (beat_time, bass_energy) pairs for the first 32 beats whose 30 ms
window lies inside the drop segment. -/
def bassEnergyPairs (segLen : ℤ) (beats : List ℚ) (bassE : ℚ → ℚ) : List (ℚ × ℚ) :=
  (beats.take 32).filterMap fun t =>
    if 0 ≤ pyInt (t * (SAMPLE_RATE : ℚ)) - window_samples
        ∧ pyInt (t * (SAMPLE_RATE : ℚ)) + window_samples < segLen
    then some (t, bassE t) else none

/-- The beats assigned to metrical position p:
round((beat_time - first_beat_time) / beat_interval) mod 4 = p. -/
def bucket (pairs : List (ℚ × ℚ)) (beat_interval : ℚ) (p : ℕ) : List (ℚ × ℚ) :=
  pairs.filter fun be =>
    decide (pyRound ((be.1 - (pairs.headD (0, 0)).1) / beat_interval) % 4 = (p : ℤ))

/-- Average bass energy per metrical position (0 for an empty position). -/
def avgList (pairs : List (ℚ × ℚ)) (beat_interval : ℚ) : List ℚ :=
  (List.range 4).map fun p =>
    if bucket pairs beat_interval p = [] then 0
    else mean ((bucket pairs beat_interval p).map Prod.snd)

/-- The downbeat position: argmax of the average bass energies when the
spread exceeds 10% of the maximum, else position 0. -/
def downbeatPos (pairs : List (ℚ × ℚ)) (beat_interval : ℚ) : ℕ :=
  if 0 < maxList (avgList pairs beat_interval)
      ∧ 1/10 < (maxList (avgList pairs beat_interval) - minList (avgList pairs beat_interval))
          / maxList (avgList pairs beat_interval)
  then argmaxIdx (avgList pairs beat_interval) else 0

/-- Embeds _extract_beat_offset_from_drop: None below 4 s of segment or 8 beats;
otherwise the first beat at the downbeat position (with fallbacks to the
first detected beat), shifted by drop_start, modulo one beat period,
rounded to milliseconds. -/
def extractBeatOffsetFromDrop (audioLen : ℕ) (highlight bpm : ℚ)
    (beats : List ℚ) (bassE : ℚ → ℚ) : Option ℚ :=
  if segLenOf audioLen highlight < (SAMPLE_RATE : ℤ) * 4 then none
  else if beats.length < 8 then none
  else if (bassEnergyPairs (segLenOf audioLen highlight) beats bassE).length < 8 then
    some (pyRoundTo 3 (pyMod (beats.headD 0 + max 0 (highlight - 1)) (60 / bpm)))
  else if bucket (bassEnergyPairs (segLenOf audioLen highlight) beats bassE) (60 / bpm)
      (downbeatPos (bassEnergyPairs (segLenOf audioLen highlight) beats bassE) (60 / bpm)) = [] then
    some (pyRoundTo 3 (pyMod (beats.headD 0 + max 0 (highlight - 1)) (60 / bpm)))
  else
    some (pyRoundTo 3 (pyMod
      (((bucket (bassEnergyPairs (segLenOf audioLen highlight) beats bassE) (60 / bpm)
          (downbeatPos (bassEnergyPairs (segLenOf audioLen highlight) beats bassE) (60 / bpm))).headD
         (0, 0)).1 + max 0 (highlight - 1))
      (60 / bpm)))

/-! ### Claim C4 -/

/-- Every value the beat-offset function returns has this shape; bounds for
it. -/
theorem offVal_bounds (x bpm : ℚ) (hbpm : 0 < bpm) :
    0 ≤ pyRoundTo 3 (pyMod x (60 / bpm))
    ∧ pyRoundTo 3 (pyMod x (60 / bpm)) < 60 / bpm + 1/2000 := by
  have hI : (0:ℚ) < 60 / bpm := by positivity
  constructor
  · exact pyRoundTo_nonneg 3 _ (pyMod_nonneg _ _ hI)
  · have h1 := pyRoundTo_le 3 (pyMod x (60 / bpm))
    have h2 := pyMod_lt x _ hI
    have h3 : (1:ℚ) / (2 * 10 ^ 3) = 1/2000 := by norm_num
    rw [h3] at h1
    linarith

/-- Eight beat events at 0.5 s spacing starting at 0.4999 s. -/
def beatsEight : List ℚ :=
  [4999/10000, 9999/10000, 14999/10000, 19999/10000,
   24999/10000, 29999/10000, 34999/10000, 39999/10000]

/-- C4 counterexample: at 120 BPM (beat period 0.5 s) with the first beat at
0.4999 s, the offset 0.4999 rounds to milliseconds as exactly 0.5, so the
returned value equals one full beat period and is not strictly below
60/bpm. -/
theorem beat_offset_rounding_reaches_period :
    extractBeatOffsetFromDrop 1323000 1 120 beatsEight (fun _ => 1) = some (1/2)
    ∧ ¬ ((1/2 : ℚ) < 60 / 120) := by
  have hws : window_samples = 1323 := by
    norm_num [window_samples, SAMPLE_RATE, pyInt]
  have hseg : segLenOf 1323000 1 = 926100 := by
    norm_num [segLenOf, SAMPLE_RATE, pyInt, min_def, max_def]
  have hpairs : bassEnergyPairs 926100 beatsEight (fun _ => 1)
      = [(4999/10000, 1), (9999/10000, 1), (14999/10000, 1), (19999/10000, 1),
         (24999/10000, 1), (29999/10000, 1), (34999/10000, 1), (39999/10000, 1)] := by
    norm_num [bassEnergyPairs, beatsEight, hws, SAMPLE_RATE, pyInt, List.filterMap]
  have h60 : (60:ℚ) / 120 = 1/2 := by norm_num
  have hb0 : bucket (bassEnergyPairs 926100 beatsEight (fun _ => 1)) (1/2) 0
      = [(4999/10000, 1), (24999/10000, 1)] := by
    rw [hpairs]
    norm_num [bucket, pyRound, List.filter, Int.emod_emod_of_dvd]
  have hb1 : bucket (bassEnergyPairs 926100 beatsEight (fun _ => 1)) (1/2) 1
      = [(9999/10000, 1), (29999/10000, 1)] := by
    rw [hpairs]
    norm_num [bucket, pyRound, List.filter]
  have hb2 : bucket (bassEnergyPairs 926100 beatsEight (fun _ => 1)) (1/2) 2
      = [(14999/10000, 1), (34999/10000, 1)] := by
    rw [hpairs]
    norm_num [bucket, pyRound, List.filter]
  have hb3 : bucket (bassEnergyPairs 926100 beatsEight (fun _ => 1)) (1/2) 3
      = [(19999/10000, 1), (39999/10000, 1)] := by
    rw [hpairs]
    norm_num [bucket, pyRound, List.filter]
  have havg : avgList (bassEnergyPairs 926100 beatsEight (fun _ => 1)) (1/2) = [1, 1, 1, 1] := by
    norm_num [avgList, List.range_succ, hb0, hb1, hb2, hb3, mean]
    exact ⟨by simp, by simp, by simp, by simp⟩
  have hdb : downbeatPos (bassEnergyPairs 926100 beatsEight (fun _ => 1)) (1/2) = 0 := by
    norm_num [downbeatPos, havg, maxList, minList]
  constructor
  · unfold extractBeatOffsetFromDrop
    rw [h60, hseg, hdb, hb0]
    rw [if_neg (by norm_num [SAMPLE_RATE]), if_neg (by norm_num [beatsEight]),
      if_neg (by rw [hpairs]; norm_num), if_neg (by simp)]
    norm_num [pyRoundTo, pyRound, pyMod, max_def]
  · norm_num

/-- C4 (amended): beat-phase detection returns None whenever fewer than 8
beats are detected; and whenever it returns v for bpm > 0, v satisfies
0 ≤ v < 60/bpm + 1/2000 — within one beat period up to the final rounding
to millisecond precision, which can make v equal to or slightly exceed
60/bpm. -/
theorem beat_offset_none_and_range (audioLen : ℕ) (highlight bpm : ℚ)
    (beats : List ℚ) (bassE : ℚ → ℚ) (hbpm : 0 < bpm) :
    (beats.length < 8 → extractBeatOffsetFromDrop audioLen highlight bpm beats bassE = none)
    ∧ ∀ v, extractBeatOffsetFromDrop audioLen highlight bpm beats bassE = some v →
        0 ≤ v ∧ v < 60 / bpm + 1/2000 := by
  constructor
  · intro hlen
    unfold extractBeatOffsetFromDrop
    split_ifs <;> rfl
  · intro v hv
    unfold extractBeatOffsetFromDrop at hv
    split_ifs at hv with h1 h2 h3 h4
    · rw [← Option.some_inj.mp hv]
      exact offVal_bounds _ bpm hbpm
    · rw [← Option.some_inj.mp hv]
      exact offVal_bounds _ bpm hbpm
    · rw [← Option.some_inj.mp hv]
      exact offVal_bounds _ bpm hbpm

/-- Witness for beat_offset_none_and_range on an empty beat list. -/
theorem beat_offset_none_and_range_witness :
    (0:ℚ) < 120 ∧ extractBeatOffsetFromDrop 0 0 120 [] (fun _ => 0) = none := by
  refine ⟨by norm_num, ?_⟩
  exact (beat_offset_none_and_range 0 0 120 [] (fun _ => 0) (by norm_num)).1 (by norm_num)

/-! ### Highlight search (analyzer.py, _find_highlight_and_extract,
lines 184-236)

The per-frame energies wrap the black-box Essentia energy extractor and
are an input; the rolling-mean segment search, clamping and rounding are
translated directly. The function returns the highlight time (the returned
audio slice is determined by it). -/

/-- Energies normalized by their maximum when it is positive. -/
def normalizeEnergies (energies : List ℚ) : List ℚ :=
  if 0 < maxList energies then energies.map fun e => e / maxList energies else energies

/-- window_frames: int(segment_duration / (hop_size / SAMPLE_RATE)), capped
at the number of frames; hop_size is SAMPLE_RATE // 2. -/
def windowFrames (segDur : ℚ) (n : ℕ) : ℕ :=
  min (pyInt (segDur / (((SAMPLE_RATE / 2 : ℕ) : ℚ) / (SAMPLE_RATE : ℚ)))).toNat n

/-- Rolling mean of the normalized energies over each window start. -/
def segmentScores (segDur : ℚ) (energies : List ℚ) : List ℚ :=
  (List.range ((normalizeEnergies energies).length
      - windowFrames segDur (normalizeEnergies energies).length + 1)).map
    fun i => mean (((normalizeEnergies energies).drop i).take
      (windowFrames segDur (normalizeEnergies energies).length))

/-- Embeds _find_highlight_and_extract's highlight time: the whole-track midpoint
for short tracks, else the clamped midpoint of the best-scoring window,
rounded to 2 decimals. -/
def findHighlightTime (audioLen : ℕ) (segDur : ℚ) (energies : List ℚ) : ℚ :=
  if (audioLen : ℚ) / (SAMPLE_RATE : ℚ) ≤ segDur then (audioLen : ℚ) / (SAMPLE_RATE : ℚ) / 2
  else if energies = [] then segDur / 2
  else if segmentScores segDur energies = [] then segDur / 2
  else
    pyRoundTo 2 (max (segDur / 2)
      (min ((audioLen : ℚ) / (SAMPLE_RATE : ℚ) - segDur / 2)
        ((argmaxIdx (segmentScores segDur energies) : ℚ)
            * (((SAMPLE_RATE / 2 : ℕ) : ℚ) / (SAMPLE_RATE : ℚ)) + segDur / 2)))

/-! ### Claim C2 -/

/-- Modelled from the spec: the transient-refinement step of the highlight
search (spec.md section 4.2 step 3) — among time-ordered percussive onsets
near the located impact, the earliest with normalized strength above 0.7 is
the refined highlight time, falling back in order to the first onset, the
impact time, and the coarse segment midpoint. No such step exists in
src/apps/analyzer/app/analyzer.py, which never consults onsets or
bass-energy gradients. -/
def specRefinedHighlight (onsets : List (ℚ × ℚ)) (impact : Option ℚ) (coarseMid : ℚ) : ℚ :=
  match (onsets.filter fun o => decide ((7/10 : ℚ) < o.2)).head? with
  | some o => o.1
  | none =>
    match onsets.head? with
    | some o => o.1
    | none => impact.getD coarseMid

/-- C2 counterexample: on a 4 s track with segment duration 1 s and frame
energies [0,0,0,0,1,1], the code returns the coarse window midpoint 2.5 s,
even though a strong onset (strength 0.9 > 0.7) exists at 2.8 s, which the
spec's refinement would return: the code performs no transient
refinement. -/
theorem highlight_no_transient_refinement :
    findHighlightTime 176400 1 [0, 0, 0, 0, 1, 1] = 5/2
    ∧ specRefinedHighlight [(14/5, 9/10)] (some (12/5)) (5/2) = 14/5
    ∧ (14/5 : ℚ) ≠ 5/2 := by
  have hmaxL : maxList [(0:ℚ), 0, 0, 0, 1, 1] = 1 := by
    norm_num [maxList, max_def]
  have hnorm : normalizeEnergies [(0:ℚ), 0, 0, 0, 1, 1] = [0, 0, 0, 0, 1, 1] := by
    norm_num [normalizeEnergies, hmaxL]
  have hwf : windowFrames 1 (normalizeEnergies [(0:ℚ), 0, 0, 0, 1, 1]).length = 2 := by
    rw [hnorm]
    norm_num [windowFrames, SAMPLE_RATE, pyInt, min_def]
    rfl
  have hscores : segmentScores 1 [(0:ℚ), 0, 0, 0, 1, 1] = [0, 0, 0, 1/2, 1] := by
    unfold segmentScores
    rw [hwf, hnorm]
    norm_num [List.range_succ, mean]
  have haidx : argmaxIdx [(0:ℚ), 0, 0, 1/2, 1] = 4 := by
    norm_num [argmaxIdx]
  refine ⟨?_, ?_, by norm_num⟩
  · unfold findHighlightTime
    rw [if_neg (by norm_num [SAMPLE_RATE]), if_neg (by simp),
      if_neg (by rw [hscores]; simp), hscores, haidx]
    norm_num [pyRoundTo, pyRound, SAMPLE_RATE, max_def, min_def]
  · norm_num [specRefinedHighlight, List.filter]

/-- C2 (amended): no transient refinement exists. For every track longer
than the target segment with a nonempty energy profile, the highlight time
is the midpoint of a best-scoring coarse window (an index maximizing the
rolling mean of normalized energies), clamped so the segment stays inside
the track and rounded to 2 decimals; onset and bass-gradient data are never
consulted. -/
theorem highlight_coarse_midpoint (audioLen : ℕ) (segDur : ℚ) (energies : List ℚ)
    (hdur : segDur < (audioLen : ℚ) / (SAMPLE_RATE : ℚ)) (hne : energies ≠ []) :
    ∃ i, i < (segmentScores segDur energies).length
      ∧ (∀ j, j < (segmentScores segDur energies).length →
          (segmentScores segDur energies).getD j 0 ≤ (segmentScores segDur energies).getD i 0)
      ∧ findHighlightTime audioLen segDur energies
          = pyRoundTo 2 (max (segDur / 2)
              (min ((audioLen : ℚ) / (SAMPLE_RATE : ℚ) - segDur / 2)
                ((i : ℚ) * (1/2) + segDur / 2))) := by
  have hlen : 0 < (segmentScores segDur energies).length := by
    unfold segmentScores
    rw [List.length_map, List.length_range]
    omega
  have hscne : segmentScores segDur energies ≠ [] :=
    List.ne_nil_of_length_pos hlen
  refine ⟨argmaxIdx (segmentScores segDur energies), argmaxIdx_lt _ hscne,
    fun j hj => argmaxIdx_le _ j hj, ?_⟩
  have hframe : (((SAMPLE_RATE / 2 : ℕ) : ℚ) / (SAMPLE_RATE : ℚ)) = 1/2 := by
    norm_num [SAMPLE_RATE]
  unfold findHighlightTime
  rw [if_neg (not_le.mpr hdur), if_neg hne, if_neg hscne, hframe]

/-- Witness for highlight_coarse_midpoint on the concrete 4 s profile. -/
theorem highlight_coarse_midpoint_witness :
    ((1:ℚ) < (176400 : ℚ) / (SAMPLE_RATE : ℚ) ∧ ([(0:ℚ), 0, 0, 0, 1, 1] ≠ []))
    ∧ ∃ i, i < (segmentScores 1 [(0:ℚ), 0, 0, 0, 1, 1]).length
      ∧ (∀ j, j < (segmentScores 1 [(0:ℚ), 0, 0, 0, 1, 1]).length →
          (segmentScores 1 [(0:ℚ), 0, 0, 0, 1, 1]).getD j 0
            ≤ (segmentScores 1 [(0:ℚ), 0, 0, 0, 1, 1]).getD i 0)
      ∧ findHighlightTime 176400 1 [(0:ℚ), 0, 0, 0, 1, 1]
          = pyRoundTo 2 (max ((1:ℚ) / 2)
              (min ((176400 : ℚ) / (SAMPLE_RATE : ℚ) - 1 / 2) ((i : ℚ) * (1/2) + 1 / 2))) :=
  ⟨⟨by norm_num [SAMPLE_RATE], by simp⟩,
    highlight_coarse_midpoint 176400 1 [0, 0, 0, 0, 1, 1]
      (by norm_num [SAMPLE_RATE]) (by simp)⟩

/-! ### Audio acquisition fallback chain (endpoints/batch.py lines 91-114,
downloader.py download_full_audio_async lines 523-588)

Network, subprocess and filesystem effects are inputs: each stage's raw
outcome is an oracle (None for a failed run, or the produced file id with
its byte size); the size-floor validation and the stage sequencing are
translated directly. File ids are natural numbers. -/

def MIN_AUDIO_SIZE : ℕ := 100 * 1024

/-- Embeds _try_direct_download_async: any internal failure is None; a produced
file is returned only if it reaches the size floor. -/
def tryDirect (run : Option (ℕ × ℕ)) : Option ℕ :=
  match run with
  | some fs => if MIN_AUDIO_SIZE ≤ fs.2 then some fs.1 else none
  | none => none

/-- Embeds _download_with_ytdlp: subprocess failure raises; a produced file below
the size floor raises; otherwise the file is returned. -/
def downloadWithYtdlp (run : Option (ℕ × ℕ)) : Except String ℕ :=
  match run with
  | none => Except.error "yt-dlp failed"
  | some fs =>
    if MIN_AUDIO_SIZE ≤ fs.2 then Except.ok fs.1
    else Except.error "SoundCloud yt-dlp: Audio too small"

/-- Embeds _download_from_youtube: same validation pattern as yt-dlp. -/
def downloadFromYoutube (run : Option (ℕ × ℕ)) : Except String ℕ :=
  match run with
  | none => Except.error "YouTube download failed"
  | some fs =>
    if MIN_AUDIO_SIZE ≤ fs.2 then Except.ok fs.1
    else Except.error "YouTube: Audio too small"

/-- download_full_audio_async: direct API (when a client id is configured),
then yt-dlp, then — when title, artist and duration metadata are all
present and the search finds a match — the YouTube download; error when
every applicable stage has failed. -/
def downloadFullAudio (hasClientId : Bool) (directRun ytdlpRun : Option (ℕ × ℕ))
    (hasMeta : Bool) (searchRun : Option ℕ) (ytRun : Option (ℕ × ℕ)) : Except String ℕ :=
  match (if hasClientId then tryDirect directRun else none) with
  | some f => Except.ok f
  | none =>
    match downloadWithYtdlp ytdlpRun with
    | Except.ok f => Except.ok f
    | Except.error _ =>
      match hasMeta, searchRun with
      | true, some _ => downloadFromYoutube ytRun
      | _, _ => Except.error "All download methods failed (SoundCloud + YouTube)"

/-- The outcome of the acquisition phase of analyze_single_track_streaming:
either streamed bytes held in memory or a downloaded file. -/
inductive Acquired
  | mem (size : ℕ)
  | file (f : ℕ)
deriving DecidableEq

/-- The stream-then-fallback acquisition of analyze_single_track_streaming:
a streamed payload below the 100KB floor raises DownloadError, which is
caught and answered by download_full_audio_async, as is any stream
failure. -/
def acquireTrack (streamRun : Except String ℕ) (hasClientId : Bool)
    (directRun ytdlpRun : Option (ℕ × ℕ)) (hasMeta : Bool) (searchRun : Option ℕ)
    (ytRun : Option (ℕ × ℕ)) : Except String Acquired :=
  match streamRun with
  | Except.ok size =>
    if size < MIN_AUDIO_SIZE then
      (downloadFullAudio hasClientId directRun ytdlpRun hasMeta searchRun ytRun).map Acquired.file
    else Except.ok (Acquired.mem size)
  | Except.error _ =>
    (downloadFullAudio hasClientId directRun ytdlpRun hasMeta searchRun ytRun).map Acquired.file

/-! ### Claim C8 -/

/-- The fallback chain fails exactly when every applicable stage fails. -/
theorem downloadFullAudio_error_iff (hasClientId : Bool)
    (directRun ytdlpRun : Option (ℕ × ℕ)) (hasMeta : Bool) (searchRun : Option ℕ)
    (ytRun : Option (ℕ × ℕ)) :
    (∃ e, downloadFullAudio hasClientId directRun ytdlpRun hasMeta searchRun ytRun
        = Except.error e)
      ↔ ¬ (hasClientId = true ∧ (tryDirect directRun).isSome = true)
        ∧ ¬ (downloadWithYtdlp ytdlpRun).isOk = true
        ∧ ¬ (hasMeta = true ∧ searchRun.isSome = true
              ∧ (downloadFromYoutube ytRun).isOk = true) := by
  cases hCid : hasClientId <;>
    cases htd : tryDirect directRun <;>
      cases hyd : downloadWithYtdlp ytdlpRun <;>
        cases hMeta : hasMeta <;>
          cases hs : searchRun <;>
            cases hyt : downloadFromYoutube ytRun <;>
              simp [downloadFullAudio, hCid, htd, hyd, hMeta, hs, hyt, Except.isOk,
                Except.toBool]

/-- C8: a streamed payload below the 100KB floor is never reported as a
successful acquisition; instead the result is exactly that of the
download_full_audio_async fallback chain (direct API, then the yt-dlp
generic extractor, then the YouTube search), and that chain returns an
error only when every applicable stage fails. -/
theorem acquire_rejects_small_payload (size : ℕ) (hsize : size < MIN_AUDIO_SIZE)
    (hasClientId : Bool) (directRun ytdlpRun ytRun : Option (ℕ × ℕ)) (hasMeta : Bool)
    (searchRun : Option ℕ) :
    acquireTrack (Except.ok size) hasClientId directRun ytdlpRun hasMeta searchRun ytRun
        ≠ Except.ok (Acquired.mem size)
    ∧ acquireTrack (Except.ok size) hasClientId directRun ytdlpRun hasMeta searchRun ytRun
        = (downloadFullAudio hasClientId directRun ytdlpRun hasMeta searchRun ytRun).map
            Acquired.file
    ∧ ((∃ e, downloadFullAudio hasClientId directRun ytdlpRun hasMeta searchRun ytRun
          = Except.error e)
        ↔ ¬ (hasClientId = true ∧ (tryDirect directRun).isSome = true)
          ∧ ¬ (downloadWithYtdlp ytdlpRun).isOk = true
          ∧ ¬ (hasMeta = true ∧ searchRun.isSome = true
                ∧ (downloadFromYoutube ytRun).isOk = true)) := by
  have hstep : acquireTrack (Except.ok size) hasClientId directRun ytdlpRun hasMeta
      searchRun ytRun
      = (downloadFullAudio hasClientId directRun ytdlpRun hasMeta searchRun ytRun).map
          Acquired.file := by
    simp only [acquireTrack]
    rw [if_pos hsize]
  refine ⟨?_, hstep, downloadFullAudio_error_iff _ _ _ _ _ _⟩
  rw [hstep]
  cases downloadFullAudio hasClientId directRun ytdlpRun hasMeta searchRun ytRun <;>
    simp [Except.map]

/-- Witness for acquire_rejects_small_payload: a 500-byte streamed payload
with every fallback stage failing. -/
theorem acquire_rejects_small_payload_witness :
    500 < MIN_AUDIO_SIZE
    ∧ acquireTrack (Except.ok 500) false none none false none none
        ≠ Except.ok (Acquired.mem 500) :=
  ⟨by norm_num [MIN_AUDIO_SIZE],
    (acquire_rejects_small_payload 500 (by norm_num [MIN_AUDIO_SIZE])
      false none none none false none).1⟩

/-! ### Batch start endpoint (endpoints/batch.py, analyze_all_tracks,
lines 324-392)

The module-level batch_state dictionary is the state; the database count of
matching tracks is an input. The response statuses and the mutations are
translated directly (messages for the started/no_tracks branches are
abbreviated constants). -/

structure BatchState where
  is_running : Bool
  total_tracks : ℕ
  processed : ℕ
  successful : ℕ
  failed : ℕ
deriving DecidableEq

structure BatchResponse where
  status : String
  total_tracks : ℕ
  message : String
deriving DecidableEq

/-- analyze_all_tracks: reject re-entrant start, report no_tracks on an
empty selection, else mark running, store the total and start the
background task. -/
def analyzeAllTracks (st : BatchState) (_includeFailed : Bool) (dbCount : ℕ) :
    BatchResponse × BatchState :=
  if st.is_running then
    (⟨"already_running", st.total_tracks, "Batch analysis is already in progress"⟩, st)
  else if dbCount = 0 then
    (⟨"no_tracks", 0, "No tracks to analyze"⟩, st)
  else
    (⟨"started", dbCount, "Started batch analysis"⟩,
      { st with is_running := true, total_tracks := dbCount })

/-! ### Claim C9 -/

/-- C9: invoking the batch start endpoint while a run is in progress
returns status already_running (echoing the running batch's total) and
leaves the batch state — total_tracks, processed, successful and failed —
exactly as it was. -/
theorem batch_start_already_running (st : BatchState) (inc : Bool)
    (dbCount : ℕ) (h : st.is_running = true) :
    analyzeAllTracks st inc dbCount
      = (⟨"already_running", st.total_tracks, "Batch analysis is already in progress"⟩, st) := by
  unfold analyzeAllTracks
  rw [if_pos h]

/-- Witness for batch_start_already_running at a concrete mid-run state. -/
theorem batch_start_already_running_witness :
    (⟨true, 5, 3, 2, 1⟩ : BatchState).is_running = true
    ∧ analyzeAllTracks ⟨true, 5, 3, 2, 1⟩ false 7
        = (⟨"already_running", 5, "Batch analysis is already in progress"⟩,
            (⟨true, 5, 3, 2, 1⟩ : BatchState)) :=
  ⟨rfl, batch_start_already_running ⟨true, 5, 3, 2, 1⟩ false 7 rfl⟩

end Musaic
